import Mathlib

/-!
Verification of the command-dispatch and argument-normalization engine of a
JSON-RPC client library (`src/client/src/client.rs`).

The development shallowly embeds:
* `serde_json::Value` as `JVal`;
* `handle_defaults` (the default-argument elision algorithm): the Rust
  function mutates `args` in place in a `for i in 0..defaults.len()` loop and
  returns a slice; the embedding passes the list state explicitly and models
  `panic!` (including the entry `assert!`) as `Option.none`;
* `Auth::get_user_pass` (the authentication resolver), with the file system
  abstracted as a map from paths to optional contents;
* the `RawTx` normalization (`raw_hex`) for each accepted representation;
* the typed dispatcher `RpcApi::call` for `Client`, over a response envelope
  modelled from the spec (the `jsonrpc` crate is an external collaborator).
-/

/-- Wire value: the generic structured representation used by `serde_json::Value`
(null / bool / number / string / array / object). -/
inductive JVal where
  | null
  | bool (b : Bool)
  | num (n : Int)
  | str (s : String)
  | arr (xs : List JVal)
  | obj (kvs : List (String × JVal))
deriving Repr

mutual

/-- Boolean equality on wire values (structural, also under `arr`/`obj`). -/
def JVal.beq : JVal → JVal → Bool
  | .null, .null => true
  | .bool a, .bool b => a == b
  | .num a, .num b => a == b
  | .str a, .str b => a == b
  | .arr a, .arr b => JVal.beqL a b
  | .obj a, .obj b => JVal.beqO a b
  | _, _ => false

/-- Boolean equality on lists of wire values. -/
def JVal.beqL : List JVal → List JVal → Bool
  | [], [] => true
  | x :: xs, y :: ys => JVal.beq x y && JVal.beqL xs ys
  | _, _ => false

/-- Boolean equality on key-value lists of wire values. -/
def JVal.beqO : List (String × JVal) → List (String × JVal) → Bool
  | [], [] => true
  | (k, v) :: xs, (k', v') :: ys => k == k' && JVal.beq v v' && JVal.beqO xs ys
  | _, _ => false

end

mutual

theorem JVal.beq_iff : ∀ a b : JVal, JVal.beq a b = true ↔ a = b
  | .null, .null => by simp [JVal.beq]
  | .bool a, .bool b => by simp [JVal.beq]
  | .num a, .num b => by simp [JVal.beq]
  | .str a, .str b => by simp [JVal.beq]
  | .arr a, .arr b => by simp [JVal.beq, JVal.beqL_iff a b]
  | .obj a, .obj b => by simp [JVal.beq, JVal.beqO_iff a b]
  | .null, .bool _ | .null, .num _ | .null, .str _ | .null, .arr _ | .null, .obj _ => by
    simp [JVal.beq]
  | .bool _, .null | .bool _, .num _ | .bool _, .str _ | .bool _, .arr _ | .bool _, .obj _ => by
    simp [JVal.beq]
  | .num _, .null | .num _, .bool _ | .num _, .str _ | .num _, .arr _ | .num _, .obj _ => by
    simp [JVal.beq]
  | .str _, .null | .str _, .bool _ | .str _, .num _ | .str _, .arr _ | .str _, .obj _ => by
    simp [JVal.beq]
  | .arr _, .null | .arr _, .bool _ | .arr _, .num _ | .arr _, .str _ | .arr _, .obj _ => by
    simp [JVal.beq]
  | .obj _, .null | .obj _, .bool _ | .obj _, .num _ | .obj _, .str _ | .obj _, .arr _ => by
    simp [JVal.beq]

theorem JVal.beqL_iff : ∀ a b : List JVal, JVal.beqL a b = true ↔ a = b
  | [], [] => by simp [JVal.beqL]
  | x :: xs, y :: ys => by
    simp [JVal.beqL, JVal.beq_iff x y, JVal.beqL_iff xs ys]
  | [], _ :: _ => by simp [JVal.beqL]
  | _ :: _, [] => by simp [JVal.beqL]

theorem JVal.beqO_iff : ∀ a b : List (String × JVal), JVal.beqO a b = true ↔ a = b
  | [], [] => by simp [JVal.beqO]
  | (k, v) :: xs, (k', v') :: ys => by
    simp [JVal.beqO, JVal.beq_iff v v', JVal.beqO_iff xs ys, and_assoc]
  | [], _ :: _ => by simp [JVal.beqO]
  | _ :: _, [] => by simp [JVal.beqO]

end

instance : DecidableEq JVal := fun a b =>
  decidable_of_iff (JVal.beq a b = true) (JVal.beq_iff a b)

/-- One iteration of the `for i in 0..defaults.len()` loop body of
`handle_defaults`: reads `args[args.len()-1-i]` and `defaults[defaults.len()-1-i]`,
fills the default (or panics, modelled as `none`) and updates
`first_non_null_optional_idx`. -/
def hdStep (args defaults : List JVal) (first : Option Nat) (i : Nat) :
    Option (List JVal × Option Nat) :=
  let argsI := args.length - 1 - i
  let defaultsI := defaults.length - 1 - i
  if args.getD argsI JVal.null = JVal.null then
    if first.isSome then
      if defaults.getD defaultsI JVal.null = JVal.null then
        none
      else
        some (args.set argsI (defaults.getD defaultsI JVal.null), first)
    else
      some (args, first)
  else
    if first.isNone then some (args, some argsI) else some (args, first)

/-- The loop of `handle_defaults`, run for `fuel` more iterations starting at
iteration index `i`, threading the mutable `args` and
`first_non_null_optional_idx` state. -/
def hdLoop (defaults : List JVal) :
    Nat → Nat → List JVal → Option Nat → Option (List JVal × Option Nat)
  | _, 0, args, first => some (args, first)
  | i, fuel + 1, args, first =>
    match hdStep args defaults first i with
    | none => none
    | some s => hdLoop defaults (i + 1) fuel s.1 s.2

/-- Embedding of `handle_defaults` from `src/client/src/client.rs`.
`none` models a panic (the entry `assert!(args.len() >= defaults.len())` or
the `panic!("Missing default ...")` inside the loop); `some r` models the
returned slice `&args[..]`. -/
def handle_defaults (args defaults : List JVal) : Option (List JVal) :=
  if args.length < defaults.length then none
  else
    match hdLoop defaults 0 defaults.length args none with
    | none => none
    | some (args', first) =>
      match first with
      | some i => some (args'.take (i + 1))
      | none => some (args'.take (args.length - defaults.length))

/-- Elementwise default-filling of an optional-argument segment against its
aligned defaults segment, with `none` modelling the `panic!` on a null slot
whose default is itself null.  This is the order-independent description of
what the loop of `handle_defaults` does once
`first_non_null_optional_idx.is_some()` holds; it is related to `hdLoop` by
`hdLoop_some_eq_fillZipOpt` below. -/
def fillZipOpt : List JVal → List JVal → Option (List JVal)
  | [], _ => some []
  | _ :: _, [] => some []
  | a :: as, d :: ds =>
    if a = JVal.null then
      if d = JVal.null then none
      else (fillZipOpt as ds).map (fun l => d :: l)
    else (fillZipOpt as ds).map (fun l => a :: l)

/-- Elementwise backfill used to state the elision claims: a null slot is
replaced by its aligned default, a non-null slot is kept. -/
def backfill (opt defs : List JVal) : List JVal :=
  List.zipWith (fun a d => if a = JVal.null then d else a) opt defs

/-- Splits a character list at the first colon, if any: the model of what
`str::splitn(2, ":")` finds.  Returns the part before the first `':'` and
everything after it. -/
def splitFirstColon : List Char → Option (List Char × List Char)
  | [] => none
  | c :: cs =>
    if c = ':' then some ([], cs)
    else (splitFirstColon cs).map (fun p => (c :: p.1, p.2))

/-- Embedding of `contents.splitn(2, ":")` as used by `Auth::get_user_pass`:
at most two pieces, split at the first colon only. -/
def splitnTwoAtColon (s : String) : List String :=
  match splitFirstColon s.toList with
  | none => [s]
  | some p => [String.mk p.1, String.mk p.2]

/-- Remote application-level error carried inside a response envelope
(`jsonrpc::error::RpcError`): code and message (further fields are not
inspected by the client). -/
structure RpcError where
  code : Int
  message : String
deriving DecidableEq, Repr

/-- Modelled from the spec: the error type of the external `jsonrpc` crate
(src/ contains only its callers): a transport/protocol failure, a remote
fault carrying the remote's code and message, or a JSON decoding failure. -/
inductive JsonRpcError where
  | transport (msg : String)
  | rpc (e : RpcError)
  | json (msg : String)
deriving DecidableEq, Repr

/-- Modelled from the spec: the library's error taxonomy (`error.rs` is not
under src/; §7 of the spec).  `jsonRpc` wraps errors of the `jsonrpc` crate
(transport failures and remote faults), `io` a failed cookie-file read, and
`invalidCookieFile` a cookie file without the required colon delimiter. -/
inductive Error where
  | jsonRpc (e : JsonRpcError)
  | io
  | invalidCookieFile
deriving DecidableEq, Repr

/-- The different authentication methods for the client (`Auth`). -/
inductive Auth where
  | none
  | userPass (u : String) (p : String)
  | cookieFile (path : String)
deriving DecidableEq, Repr

/-- Embedding of `Auth::get_user_pass`.  File I/O is abstracted by `fs`,
mapping a path to its content when the file can be opened and read, `none`
when it cannot (in which case the `?` on `File::open`/`read_to_string`
propagates an I/O error). -/
def Auth.get_user_pass (fs : String → Option String) :
    Auth → Except Error (Option String × Option String)
  | Auth.none => Except.ok (Option.none, Option.none)
  | Auth.userPass u p => Except.ok (some u, some p)
  | Auth.cookieFile path =>
    match fs path with
    | Option.none => Except.error Error.io
    | some contents =>
      match splitnTwoAtColon contents with
      | [] => Except.error Error.invalidCookieFile
      | [_] => Except.error Error.invalidCookieFile
      | u :: p :: _ => Except.ok (some u, some p)

/-- Response envelope of the transport, modelled from the spec (the
`jsonrpc` crate's `Response` is an external collaborator): an optional
result payload and an optional remote fault. -/
structure Response where
  result : Option JVal
  error : Option RpcError
deriving DecidableEq, Repr

/-- Modelled from the spec: `Response::into_result` of the external
`jsonrpc` crate, specialised to a decoder `decode` standing for
`serde_json::from_value` at the statically expected type: a remote fault in
the envelope is surfaced as-is; otherwise the result payload (null when
absent) is decoded. -/
def intoResult {T : Type} (decode : JVal → Except String T) (resp : Response) :
    Except JsonRpcError T :=
  match resp.error with
  | some e => Except.error (JsonRpcError.rpc e)
  | Option.none =>
    match decode (resp.result.getD JVal.null) with
    | Except.ok t => Except.ok t
    | Except.error m => Except.error (JsonRpcError.json m)

/-- Embedding of `RpcApi::call` for `Client`: builds the request (the
command name and argument array are handed to the transport), maps a
transport failure into the library error type, and otherwise extracts the
typed result from the envelope via `intoResult`.  The debug logging of the
source is diagnostic only and has no effect on the returned value. -/
def Client.call {T : Type} (transport : String → List JVal → Except String Response)
    (decode : JVal → Except String T) (cmd : String) (args : List JVal) :
    Except Error T :=
  match transport cmd args with
  | Except.error e => Except.error (Error.jsonRpc (JsonRpcError.transport e))
  | Except.ok resp =>
    match intoResult decode resp with
    | Except.ok t => Except.ok t
    | Except.error e => Except.error (Error.jsonRpc e)

/-- Lowercase hexadecimal digit for a nibble, as produced by `hex::encode`. -/
def hexDigit (n : Nat) : Char :=
  if n < 10 then Char.ofNat (48 + n) else Char.ofNat (87 + n)

/-- Embedding of `hex::encode` on a byte list (bytes as naturals below 256):
each byte becomes two lowercase hex digits, high nibble first. -/
def hexEncode (bytes : List Nat) : String :=
  String.mk (bytes.flatMap (fun b => [hexDigit (b / 16 % 16), hexDigit (b % 16)]))

/-- The accepted raw-transaction input representations of the `RawTx` trait:
a structured transaction (over an abstract transaction type `Tx`), a
borrowed byte slice, an owned byte vector, a borrowed string and an owned
string. -/
inductive RawTxInput (Tx : Type) where
  | tx (t : Tx)
  | bytes (bs : List Nat)
  | vec (bs : List Nat)
  | str (s : String)
  | string (s : String)

/-- Embedding of the `RawTx::raw_hex` implementations: a transaction is
consensus-serialized (`ser` stands for the external
`bitcoin::consensus::encode::serialize`) and hex-encoded, byte buffers are
hex-encoded, and both string representations are returned as-is. -/
def raw_hex {Tx : Type} (ser : Tx → List Nat) : RawTxInput Tx → String
  | RawTxInput.tx t => hexEncode (ser t)
  | RawTxInput.bytes bs => hexEncode bs
  | RawTxInput.vec bs => hexEncode bs
  | RawTxInput.str s => s
  | RawTxInput.string s => s

/-- A canonical hex string: even length, all characters lowercase hex
digits. -/
def isCanonicalHex (s : String) : Bool :=
  s.toList.all (fun c => ('0' ≤ c && c ≤ '9') || ('a' ≤ c && c ≤ 'f')) &&
    s.toList.length % 2 = 0


/-! ## Case equations for one iteration of the elision loop -/

theorem hdStep_null_none {args : List JVal} (defaults : List JVal) {i : Nat}
    (hA : args.getD (args.length - 1 - i) JVal.null = JVal.null) :
    hdStep args defaults none i = some (args, none) := by
  simp only [hdStep]
  rw [if_pos hA, if_neg (show ¬ (Option.none : Option Nat).isSome = true by simp)]

theorem hdStep_null_some_panic {args defaults : List JVal} {i f : Nat}
    (hA : args.getD (args.length - 1 - i) JVal.null = JVal.null)
    (hD : defaults.getD (defaults.length - 1 - i) JVal.null = JVal.null) :
    hdStep args defaults (some f) i = none := by
  simp only [hdStep]
  rw [if_pos hA, if_pos (show (some f).isSome = true from rfl), if_pos hD]

theorem hdStep_null_some_fill {args defaults : List JVal} {i f : Nat}
    (hA : args.getD (args.length - 1 - i) JVal.null = JVal.null)
    (hD : ¬ defaults.getD (defaults.length - 1 - i) JVal.null = JVal.null) :
    hdStep args defaults (some f) i =
      some (args.set (args.length - 1 - i)
        (defaults.getD (defaults.length - 1 - i) JVal.null), some f) := by
  simp only [hdStep]
  rw [if_pos hA, if_pos (show (some f).isSome = true from rfl), if_neg hD]

theorem hdStep_nonnull_none {args : List JVal} (defaults : List JVal) {i : Nat}
    (hA : ¬ args.getD (args.length - 1 - i) JVal.null = JVal.null) :
    hdStep args defaults none i = some (args, some (args.length - 1 - i)) := by
  simp only [hdStep]
  rw [if_neg hA, if_pos (show (Option.none : Option Nat).isNone = true from rfl)]

theorem hdStep_nonnull_some {args : List JVal} (defaults : List JVal) {i f : Nat}
    (hA : ¬ args.getD (args.length - 1 - i) JVal.null = JVal.null) :
    hdStep args defaults (some f) i = some (args, some f) := by
  simp only [hdStep]
  rw [if_neg hA, if_neg (show ¬ (some f).isNone = true by simp)]

/-! ## Basic invariants of the elision loop -/

theorem hdStep_some_length {args defaults : List JVal} {first : Option Nat} {i : Nat}
    {s : List JVal × Option Nat} (h : hdStep args defaults first i = some s) :
    s.1.length = args.length := by
  by_cases hA : args.getD (args.length - 1 - i) JVal.null = JVal.null
  · cases first with
    | none =>
      rw [hdStep_null_none defaults hA] at h
      cases h
      rfl
    | some f =>
      by_cases hD : defaults.getD (defaults.length - 1 - i) JVal.null = JVal.null
      · rw [hdStep_null_some_panic hA hD] at h
        cases h
      · rw [hdStep_null_some_fill hA hD] at h
        cases h
        simp
  · cases first with
    | none =>
      rw [hdStep_nonnull_none defaults hA] at h
      cases h
      rfl
    | some f =>
      rw [hdStep_nonnull_some defaults hA] at h
      cases h
      rfl

theorem hdStep_some_fst {args defaults : List JVal} {f i : Nat}
    {s : List JVal × Option Nat} (h : hdStep args defaults (some f) i = some s) :
    s.2 = some f := by
  by_cases hA : args.getD (args.length - 1 - i) JVal.null = JVal.null
  · by_cases hD : defaults.getD (defaults.length - 1 - i) JVal.null = JVal.null
    · rw [hdStep_null_some_panic hA hD] at h
      cases h
    · rw [hdStep_null_some_fill hA hD] at h
      cases h
      rfl
  · rw [hdStep_nonnull_some defaults hA] at h
    cases h
    rfl

theorem hdLoop_length (defaults : List JVal) :
    ∀ fuel i args first args' first',
      hdLoop defaults i fuel args first = some (args', first') → args'.length = args.length := by
  intro fuel
  induction fuel with
  | zero =>
    intro i args first args' first' h
    simp only [hdLoop, Option.some.injEq, Prod.mk.injEq] at h
    rw [← h.1]
  | succ n ih =>
    intro i args first args' first' h
    simp only [hdLoop] at h
    cases hs : hdStep args defaults first i with
    | none => rw [hs] at h; cases h
    | some s =>
      rw [hs] at h
      simp only at h
      rw [ih _ _ _ _ _ h, hdStep_some_length hs]

theorem hdLoop_some_fst (defaults : List JVal) :
    ∀ fuel i args f args' first',
      hdLoop defaults i fuel args (some f) = some (args', first') → first' = some f := by
  intro fuel
  induction fuel with
  | zero =>
    intro i args f args' first' h
    simp only [hdLoop, Option.some.injEq, Prod.mk.injEq] at h
    exact h.2.symm
  | succ n ih =>
    intro i args f args' first' h
    simp only [hdLoop] at h
    cases hs : hdStep args defaults (some f) i with
    | none => rw [hs] at h; cases h
    | some s =>
      rw [hs] at h
      simp only at h
      obtain ⟨s1, s2⟩ := s
      cases hdStep_some_fst hs
      exact ih _ _ _ _ _ h

/-! ## Stripping a required argument: the loop ignores the head of `args`
when `args` is strictly longer than `defaults` -/

theorem hdStep_cons (x : JVal) {args defaults : List JVal} (first : Option Nat) {i : Nat}
    (hi : i < defaults.length) (hM : defaults.length ≤ args.length) :
    hdStep (x :: args) defaults (first.map (· + 1)) i =
      (hdStep args defaults first i).map (fun p => (x :: p.1, p.2.map (· + 1))) := by
  have hidx : (x :: args).length - 1 - i = (args.length - 1 - i) + 1 := by
    simp only [List.length_cons]
    omega
  by_cases hA : args.getD (args.length - 1 - i) JVal.null = JVal.null
  · have hA' : (x :: args).getD ((x :: args).length - 1 - i) JVal.null = JVal.null := by
      rw [hidx, List.getD_cons_succ]
      exact hA
    cases first with
    | none =>
      rw [show (Option.none : Option Nat).map (· + 1) = Option.none from rfl,
        hdStep_null_none defaults hA', hdStep_null_none defaults hA]
      rfl
    | some f =>
      by_cases hD : defaults.getD (defaults.length - 1 - i) JVal.null = JVal.null
      · rw [show (some f).map (· + 1) = some (f + 1) from rfl,
          hdStep_null_some_panic hA' hD, hdStep_null_some_panic hA hD]
        rfl
      · rw [show (some f).map (· + 1) = some (f + 1) from rfl,
          hdStep_null_some_fill hA' hD, hdStep_null_some_fill hA hD, hidx]
        rfl
  · have hA' : ¬ (x :: args).getD ((x :: args).length - 1 - i) JVal.null = JVal.null := by
      rw [hidx, List.getD_cons_succ]
      exact hA
    cases first with
    | none =>
      rw [show (Option.none : Option Nat).map (· + 1) = Option.none from rfl,
        hdStep_nonnull_none defaults hA', hdStep_nonnull_none defaults hA, hidx]
      rfl
    | some f =>
      rw [show (some f).map (· + 1) = some (f + 1) from rfl,
        hdStep_nonnull_some defaults hA', hdStep_nonnull_some defaults hA]
      rfl

theorem hdLoop_cons (x : JVal) (defaults : List JVal) :
    ∀ fuel i args first,
      i + fuel ≤ defaults.length → defaults.length ≤ args.length →
      hdLoop defaults i fuel (x :: args) (first.map (· + 1)) =
        (hdLoop defaults i fuel args first).map
          (fun p => (x :: p.1, p.2.map (· + 1))) := by
  intro fuel
  induction fuel with
  | zero =>
    intro i args first _ _
    simp only [hdLoop, Option.map]
  | succ n ih =>
    intro i args first hfuel hM
    have hi : i < defaults.length := by omega
    simp only [hdLoop]
    rw [hdStep_cons x first hi hM]
    cases hs : hdStep args defaults first i with
    | none => simp only [Option.map]
    | some s =>
      simp only [Option.map]
      have hlen : defaults.length ≤ s.1.length := by
        rw [hdStep_some_length hs]
        exact hM
      exact ih (i + 1) s.1 s.2 (by omega) hlen

theorem handle_defaults_cons (x : JVal) {args defaults : List JVal}
    (hM : defaults.length ≤ args.length) :
    handle_defaults (x :: args) defaults =
      (handle_defaults args defaults).map (fun l => x :: l) := by
  have hcons := hdLoop_cons x defaults defaults.length 0 args Option.none (by omega) hM
  rw [show (Option.none : Option Nat).map (· + 1) = Option.none from rfl] at hcons
  unfold handle_defaults
  rw [if_neg (by simp only [List.length_cons]; omega), if_neg (by omega)]
  cases hl : hdLoop defaults 0 defaults.length args none with
  | none =>
    rw [hl] at hcons
    simp only [Option.map] at hcons
    rw [hcons]
    rfl
  | some s =>
    obtain ⟨args', first⟩ := s
    rw [hl] at hcons
    simp only [Option.map] at hcons
    rw [hcons]
    cases first with
    | none =>
      simp only [Option.map, List.length_cons]
      have harith : args.length + 1 - defaults.length = (args.length - defaults.length) + 1 := by
        omega
      rw [harith]
      rfl
    | some idx =>
      simp only [Option.map]
      rfl

/-! ## Processing the rightmost slot: shifting the loop across a final element -/

theorem getD_concat {α : Type} (l l2 : List α) (a dflt : α) :
    (l ++ a :: l2).getD l.length dflt = a := by
  rw [List.getD_eq_getElem?_getD, List.getElem?_append_right (Nat.le_refl _)]
  simp

theorem set_concat {α : Type} (l : List α) (a v : α) :
    (l ++ [a]).set l.length v = l ++ [v] := by
  rw [List.set_append_right]
  · simp
  · omega

theorem hdStep_snoc (a d : JVal) {args defaults : List JVal} (first : Option Nat) {i : Nat}
    (hia : i < args.length) (hid : i < defaults.length) :
    hdStep (args ++ [a]) (defaults ++ [d]) first (i + 1) =
      (hdStep args defaults first i).map (fun p => (p.1 ++ [a], p.2)) := by
  have hidxA : (args ++ [a]).length - 1 - (i + 1) = args.length - 1 - i := by
    simp only [List.length_append, List.length_cons, List.length_nil]
    omega
  have hidxD : (defaults ++ [d]).length - 1 - (i + 1) = defaults.length - 1 - i := by
    simp only [List.length_append, List.length_cons, List.length_nil]
    omega
  have hltA : args.length - 1 - i < args.length := by omega
  have hltD : defaults.length - 1 - i < defaults.length := by omega
  have hgA : (args ++ [a]).getD ((args ++ [a]).length - 1 - (i + 1)) JVal.null =
      args.getD (args.length - 1 - i) JVal.null := by
    rw [hidxA, List.getD_append _ _ _ _ hltA]
  have hgD : (defaults ++ [d]).getD ((defaults ++ [d]).length - 1 - (i + 1)) JVal.null =
      defaults.getD (defaults.length - 1 - i) JVal.null := by
    rw [hidxD, List.getD_append _ _ _ _ hltD]
  by_cases hA : args.getD (args.length - 1 - i) JVal.null = JVal.null
  · have hA' := hgA.trans hA
    cases first with
    | none =>
      rw [hdStep_null_none (defaults ++ [d]) hA', hdStep_null_none defaults hA]
      rfl
    | some f =>
      by_cases hD : defaults.getD (defaults.length - 1 - i) JVal.null = JVal.null
      · have hD' := hgD.trans hD
        rw [hdStep_null_some_panic hA' hD', hdStep_null_some_panic hA hD]
        rfl
      · have hD' : ¬ (defaults ++ [d]).getD ((defaults ++ [d]).length - 1 - (i + 1))
            JVal.null = JVal.null := by
          rw [hgD]
          exact hD
        rw [hdStep_null_some_fill hA' hD', hdStep_null_some_fill hA hD]
        simp only [Option.map, Option.some.injEq, Prod.mk.injEq]
        constructor
        · rw [hgD, hidxA, List.set_append_left _ _ hltA]
        · trivial
  · have hA' : ¬ (args ++ [a]).getD ((args ++ [a]).length - 1 - (i + 1))
        JVal.null = JVal.null := by
      rw [hgA]
      exact hA
    cases first with
    | none =>
      rw [hdStep_nonnull_none (defaults ++ [d]) hA', hdStep_nonnull_none defaults hA, hidxA]
      rfl
    | some f =>
      rw [hdStep_nonnull_some (defaults ++ [d]) hA', hdStep_nonnull_some defaults hA]
      rfl

theorem hdLoop_snoc (a d : JVal) (defaults : List JVal) :
    ∀ fuel i args first,
      i + fuel ≤ defaults.length → i + fuel ≤ args.length →
      hdLoop (defaults ++ [d]) (i + 1) fuel (args ++ [a]) first =
        (hdLoop defaults i fuel args first).map (fun p => (p.1 ++ [a], p.2)) := by
  intro fuel
  induction fuel with
  | zero =>
    intro i args first _ _
    simp only [hdLoop, Option.map]
  | succ n ih =>
    intro i args first hfd hfa
    have hia : i < args.length := by omega
    have hid : i < defaults.length := by omega
    simp only [hdLoop]
    rw [hdStep_snoc a d first hia hid]
    cases hs : hdStep args defaults first i with
    | none => simp only [Option.map]
    | some s =>
      simp only [Option.map]
      have hlen : i + 1 + n ≤ s.1.length := by
        rw [hdStep_some_length hs]
        omega
      exact ih (i + 1) s.1 s.2 (by omega) hlen

/-! ## The backfill phase as an elementwise operation -/

theorem fillZipOpt_concat :
    ∀ (as ds : List JVal) (a d : JVal), as.length = ds.length →
      fillZipOpt (as ++ [a]) (ds ++ [d]) =
        if a = JVal.null then
          if d = JVal.null then none
          else (fillZipOpt as ds).map (fun l => l ++ [d])
        else (fillZipOpt as ds).map (fun l => l ++ [a]) := by
  intro as
  induction as with
  | nil =>
    intro ds a d h
    have hds : ds = [] := List.length_eq_zero.mp (by simpa using h.symm)
    subst hds
    simp only [List.nil_append, fillZipOpt]
    split_ifs <;> simp [fillZipOpt]
  | cons x as ih =>
    intro ds a d h
    cases ds with
    | nil => simp at h
    | cons y ds =>
      have h' : as.length = ds.length := by simpa using h
      simp only [List.cons_append, fillZipOpt, List.append_eq]
      rw [ih ds a d h']
      cases hfz : fillZipOpt as ds with
      | none => split_ifs <;> simp
      | some l => split_ifs <;> simp

theorem hdLoop_step {defaults : List JVal} {i : Nat} (fuel : Nat) {args : List JVal}
    {first : Option Nat} {a2 : List JVal} {f2 : Option Nat}
    (h : hdStep args defaults first i = some (a2, f2)) :
    hdLoop defaults i (fuel + 1) args first = hdLoop defaults (i + 1) fuel a2 f2 := by
  simp only [hdLoop, h]

theorem hdLoop_panic {defaults : List JVal} {i : Nat} (fuel : Nat) {args : List JVal}
    {first : Option Nat} (h : hdStep args defaults first i = none) :
    hdLoop defaults i (fuel + 1) args first = none := by
  simp only [hdLoop, h]

theorem exists_concat_of_length_succ {α : Type} {l : List α} {n : Nat}
    (h : l.length = n + 1) :
    ∃ (l' : List α) (x : α), l = l' ++ [x] ∧ l'.length = n := by
  rcases List.eq_nil_or_concat l with rfl | ⟨L, b, rfl⟩
  · simp at h
  · refine ⟨L, b, List.concat_eq_append L b, ?_⟩
    simp only [List.concat_eq_append, List.length_append, List.length_cons,
      List.length_nil] at h
    omega

theorem hdLoop_some_eq_fillZipOpt :
    ∀ (n : Nat) (as ds : List JVal) (f : Nat), as.length = n → ds.length = n →
      hdLoop ds 0 n as (some f) = (fillZipOpt as ds).map (fun l => (l, some f)) := by
  intro n
  induction n with
  | zero =>
    intro as ds f ha hd
    rw [List.length_eq_zero.mp ha, List.length_eq_zero.mp hd]
    simp only [hdLoop, fillZipOpt, Option.map]
  | succ n ih =>
    intro as ds f ha hd
    obtain ⟨as', a, rfl, ha'⟩ := exists_concat_of_length_succ ha
    obtain ⟨ds', d, rfl, hd'⟩ := exists_concat_of_length_succ hd
    have hidx : (as' ++ [a]).length - 1 - 0 = as'.length := by
      simp only [List.length_append, List.length_cons, List.length_nil]
      omega
    have hg : (as' ++ [a]).getD ((as' ++ [a]).length - 1 - 0) JVal.null = a := by
      rw [hidx]
      exact getD_concat as' [] a JVal.null
    have hidxD : (ds' ++ [d]).length - 1 - 0 = ds'.length := by
      simp only [List.length_append, List.length_cons, List.length_nil]
      omega
    have hgD : (ds' ++ [d]).getD ((ds' ++ [d]).length - 1 - 0) JVal.null = d := by
      rw [hidxD]
      exact getD_concat ds' [] d JVal.null
    rw [fillZipOpt_concat as' ds' a d (ha'.trans hd'.symm)]
    by_cases hA : a = JVal.null
    · by_cases hD : d = JVal.null
      · rw [hdLoop_panic n (hdStep_null_some_panic (hg.trans hA) (hgD.trans hD)),
          if_pos hA, if_pos hD]
        rfl
      · have hD' : ¬ (ds' ++ [d]).getD ((ds' ++ [d]).length - 1 - 0) JVal.null =
            JVal.null := by
          rw [hgD]
          exact hD
        rw [hdLoop_step n (hdStep_null_some_fill (hg.trans hA) hD'), hgD, hidx,
          set_concat, hdLoop_snoc d d ds' n 0 as' (some f) (by omega) (by omega),
          ih as' ds' f ha' hd', if_pos hA, if_neg hD]
        cases fillZipOpt as' ds' <;> rfl
    · have hA' : ¬ (as' ++ [a]).getD ((as' ++ [a]).length - 1 - 0) JVal.null =
          JVal.null := by
        rw [hg]
        exact hA
      rw [hdLoop_step n (hdStep_nonnull_some (ds' ++ [d]) hA'),
        hdLoop_snoc a d ds' n 0 as' (some f) (by omega) (by omega),
        ih as' ds' f ha' hd', if_neg hA]
      cases fillZipOpt as' ds' <;> rfl

/-! ## Reducing `handle_defaults` through its loop outcome -/

theorem handle_defaults_of_loop_panic {args defaults : List JVal}
    (hM : defaults.length ≤ args.length)
    (h : hdLoop defaults 0 defaults.length args none = none) :
    handle_defaults args defaults = none := by
  unfold handle_defaults
  rw [if_neg (by omega), h]

theorem handle_defaults_of_loop_some {args defaults a' : List JVal} {i : Nat}
    (hM : defaults.length ≤ args.length)
    (h : hdLoop defaults 0 defaults.length args none = some (a', some i)) :
    handle_defaults args defaults = some (a'.take (i + 1)) := by
  unfold handle_defaults
  rw [if_neg (by omega), h]

theorem handle_defaults_of_loop_none {args defaults a' : List JVal}
    (hM : defaults.length ≤ args.length)
    (h : hdLoop defaults 0 defaults.length args none = some (a', none)) :
    handle_defaults args defaults = some (a'.take (args.length - defaults.length)) := by
  unfold handle_defaults
  rw [if_neg (by omega), h]

theorem hdLoop_none_fst_lt (defaults : List JVal) :
    ∀ fuel i args args' idx,
      hdLoop defaults i fuel args none = some (args', some idx) → idx < args.length := by
  intro fuel
  induction fuel with
  | zero =>
    intro i args args' idx h
    simp only [hdLoop, Option.some.injEq, Prod.mk.injEq] at h
    exact absurd h.2 (by simp)
  | succ n ih =>
    intro i args args' idx h
    by_cases hA : args.getD (args.length - 1 - i) JVal.null = JVal.null
    · rw [hdLoop_step n (hdStep_null_none defaults hA)] at h
      exact ih (i + 1) args args' idx h
    · rw [hdLoop_step n (hdStep_nonnull_none defaults hA)] at h
      have hf := hdLoop_some_fst defaults n (i + 1) args (args.length - 1 - i)
        args' (some idx) h
      have hpos : 0 < args.length := by
        rcases args with _ | ⟨y, ys⟩
        · exact absurd (by simp) hA
        · simp
      have hidx : idx = args.length - 1 - i := by
        injection hf
      omega

/-! ## Equal-length case equations: the rightmost slot decides the shape -/

theorem hd_eq_snoc_null {as ds : List JVal} (d : JVal) (heq : as.length = ds.length) :
    handle_defaults (as ++ [JVal.null]) (ds ++ [d]) = handle_defaults as ds := by
  have hlen2 : (ds ++ [d]).length = ds.length + 1 := by simp
  have hidx : (as ++ [JVal.null]).length - 1 - 0 = as.length := by simp
  have hA : (as ++ [JVal.null]).getD ((as ++ [JVal.null]).length - 1 - 0) JVal.null =
      JVal.null := by
    rw [hidx]
    exact getD_concat as [] JVal.null JVal.null
  have hloop : hdLoop (ds ++ [d]) 0 (ds ++ [d]).length (as ++ [JVal.null]) none =
      (hdLoop ds 0 ds.length as none).map (fun p => (p.1 ++ [JVal.null], p.2)) := by
    rw [hlen2, hdLoop_step ds.length (hdStep_null_none (ds ++ [d]) hA),
      hdLoop_snoc JVal.null d ds ds.length 0 as none (by omega) (by omega)]
  have hMext : (ds ++ [d]).length ≤ (as ++ [JVal.null]).length := by
    simp only [List.length_append, List.length_cons, List.length_nil]
    omega
  cases hl : hdLoop ds 0 ds.length as none with
  | none =>
    rw [hl] at hloop
    rw [handle_defaults_of_loop_panic hMext hloop,
      handle_defaults_of_loop_panic (by omega) hl]
  | some s =>
    obtain ⟨a', f'⟩ := s
    rw [hl] at hloop
    simp only [Option.map] at hloop
    cases f' with
    | none =>
      rw [handle_defaults_of_loop_none hMext hloop,
        handle_defaults_of_loop_none (by omega) hl]
      have e1 : (as ++ [JVal.null]).length - (ds ++ [d]).length = 0 := by
        simp only [List.length_append, List.length_cons, List.length_nil]
        omega
      have e2 : as.length - ds.length = 0 := by omega
      rw [e1, e2]
      rfl
    | some idx =>
      rw [handle_defaults_of_loop_some hMext hloop,
        handle_defaults_of_loop_some (by omega) hl]
      have hb : idx < as.length := hdLoop_none_fst_lt ds ds.length 0 as a' idx hl
      have ha' : a'.length = as.length := hdLoop_length ds ds.length 0 as none a' (some idx) hl
      rw [List.take_append_of_le_length (by omega)]

theorem fillZipOpt_length :
    ∀ (as ds l : List JVal), as.length = ds.length → fillZipOpt as ds = some l →
      l.length = as.length := by
  intro as
  induction as with
  | nil =>
    intro ds l h hfz
    simp only [fillZipOpt, Option.some.injEq] at hfz
    rw [← hfz]
  | cons x xs ih =>
    intro ds l h hfz
    cases ds with
    | nil => simp at h
    | cons y ys =>
      have h' : xs.length = ys.length := by simpa using h
      simp only [fillZipOpt] at hfz
      by_cases hx : x = JVal.null
      · by_cases hy : y = JVal.null
        · rw [if_pos hx, if_pos hy] at hfz
          cases hfz
        · rw [if_pos hx, if_neg hy] at hfz
          cases hfz2 : fillZipOpt xs ys with
          | none => rw [hfz2] at hfz; cases hfz
          | some l2 =>
            rw [hfz2] at hfz
            simp only [Option.map, Option.some.injEq] at hfz
            rw [← hfz]
            simp only [List.length_cons, ih ys l2 h' hfz2]
      · rw [if_neg hx] at hfz
        cases hfz2 : fillZipOpt xs ys with
        | none => rw [hfz2] at hfz; cases hfz
        | some l2 =>
          rw [hfz2] at hfz
          simp only [Option.map, Option.some.injEq] at hfz
          rw [← hfz]
          simp only [List.length_cons, ih ys l2 h' hfz2]

theorem hd_eq_snoc_nonnull {as ds : List JVal} {a : JVal} (d : JVal)
    (heq : as.length = ds.length) (hnn : ¬ a = JVal.null) :
    handle_defaults (as ++ [a]) (ds ++ [d]) =
      (fillZipOpt as ds).map (fun l => l ++ [a]) := by
  have hlen2 : (ds ++ [d]).length = ds.length + 1 := by simp
  have hidx : (as ++ [a]).length - 1 - 0 = as.length := by simp
  have hA : ¬ (as ++ [a]).getD ((as ++ [a]).length - 1 - 0) JVal.null = JVal.null := by
    rw [hidx, getD_concat as [] a JVal.null]
    exact hnn
  have hloop : hdLoop (ds ++ [d]) 0 (ds ++ [d]).length (as ++ [a]) none =
      ((fillZipOpt as ds).map (fun l => (l, some ((as ++ [a]).length - 1 - 0)))).map
        (fun p => (p.1 ++ [a], p.2)) := by
    rw [hlen2, hdLoop_step ds.length (hdStep_nonnull_none (ds ++ [d]) hA),
      hdLoop_snoc a d ds ds.length 0 as (some ((as ++ [a]).length - 1 - 0))
        (by omega) (by omega),
      hdLoop_some_eq_fillZipOpt ds.length as ds ((as ++ [a]).length - 1 - 0)
        (by omega) rfl]
  have hMext : (ds ++ [d]).length ≤ (as ++ [a]).length := by
    simp only [List.length_append, List.length_cons, List.length_nil]
    omega
  cases hfz : fillZipOpt as ds with
  | none =>
    rw [hfz] at hloop
    simp only [Option.map] at hloop
    rw [handle_defaults_of_loop_panic hMext hloop]
    rfl
  | some l =>
    rw [hfz] at hloop
    simp only [Option.map] at hloop
    rw [hidx] at hloop
    rw [handle_defaults_of_loop_some hMext hloop]
    simp only [Option.map, Option.some.injEq]
    have hlen : l.length = as.length := fillZipOpt_length as ds l heq hfz
    exact List.take_of_length_le (by simp [hlen])

theorem fillZipOpt_eq_backfill :
    ∀ (as ds : List JVal), as.length = ds.length →
      (∀ p ∈ List.zip as ds, p.1 = JVal.null → ¬ p.2 = JVal.null) →
      fillZipOpt as ds = some (backfill as ds) := by
  intro as
  induction as with
  | nil =>
    intro ds h _
    rw [List.length_eq_zero.mp h.symm]
    rfl
  | cons x xs ih =>
    intro ds h hcond
    cases ds with
    | nil => simp at h
    | cons y ys =>
      have h' : xs.length = ys.length := by simpa using h
      have hrec := ih ys h' (fun p hp hp1 =>
        hcond p (by rw [List.zip_cons_cons]; exact List.mem_cons_of_mem _ hp) hp1)
      simp only [fillZipOpt]
      by_cases hx : x = JVal.null
      · have hy : ¬ y = JVal.null :=
          hcond (x, y) (by rw [List.zip_cons_cons]; exact List.mem_cons_self _ _) hx
        rw [if_pos hx, if_neg hy, hrec]
        simp only [Option.map, Option.some.injEq]
        simp [backfill, hx]
      · rw [if_neg hx, hrec]
        simp only [Option.map, Option.some.injEq]
        simp [backfill, hx]

theorem fillZipOpt_null_null :
    ∀ (x1 y1 x2 y2 : List JVal), x1.length = y1.length →
      fillZipOpt (x1 ++ JVal.null :: x2) (y1 ++ JVal.null :: y2) = none := by
  intro x1
  induction x1 with
  | nil =>
    intro y1 x2 y2 h
    rw [List.length_eq_zero.mp h.symm]
    simp [fillZipOpt]
  | cons x xs ih =>
    intro y1 x2 y2 h
    cases y1 with
    | nil => simp at h
    | cons y ys =>
      simp only [List.cons_append, fillZipOpt, List.append_eq]
      rw [ih ys x2 y2 (by simpa using h)]
      by_cases hx : x = JVal.null
      · by_cases hy : y = JVal.null <;> simp [hx, hy]
      · simp [hx]

theorem fillZipOpt_getD :
    ∀ (as ds l : List JVal), as.length = ds.length → fillZipOpt as ds = some l →
      ∀ i, i < as.length →
        l.getD i JVal.null =
          if as.getD i JVal.null = JVal.null then ds.getD i JVal.null
          else as.getD i JVal.null := by
  intro as
  induction as with
  | nil =>
    intro ds l h hfz i hi
    simp at hi
  | cons x xs ih =>
    intro ds l h hfz i hi
    cases ds with
    | nil => simp at h
    | cons y ys =>
      have h' : xs.length = ys.length := by simpa using h
      simp only [fillZipOpt] at hfz
      by_cases hx : x = JVal.null
      · by_cases hy : y = JVal.null
        · rw [if_pos hx, if_pos hy] at hfz
          cases hfz
        · rw [if_pos hx, if_neg hy] at hfz
          cases hfz2 : fillZipOpt xs ys with
          | none => rw [hfz2] at hfz; cases hfz
          | some l2 =>
            rw [hfz2] at hfz
            simp only [Option.map, Option.some.injEq] at hfz
            subst hfz
            cases i with
            | zero => simp [hx]
            | succ j =>
              simp only [List.getD_cons_succ]
              exact ih ys l2 h' hfz2 j (by simpa using hi)
      · rw [if_neg hx] at hfz
        cases hfz2 : fillZipOpt xs ys with
        | none => rw [hfz2] at hfz; cases hfz
        | some l2 =>
          rw [hfz2] at hfz
          simp only [Option.map, Option.some.injEq] at hfz
          subst hfz
          cases i with
          | zero => simp [hx]
          | succ j =>
            simp only [List.getD_cons_succ]
            exact ih ys l2 h' hfz2 j (by simpa using hi)

/-! ## Master characterization: rightmost non-null optional slot followed by nulls -/

theorem hd_master_noreq :
    ∀ (n : Nat) (optL defL : List JVal) (v dmid : JVal) (opt2 def2 : List JVal),
      optL.length = defL.length → opt2.length = n → def2.length = n →
      ¬ v = JVal.null → (∀ x ∈ opt2, x = JVal.null) →
      (∀ p ∈ List.zip optL defL, p.1 = JVal.null → ¬ p.2 = JVal.null) →
      handle_defaults (optL ++ v :: opt2) (defL ++ dmid :: def2) =
        some (backfill optL defL ++ [v]) := by
  intro n
  induction n with
  | zero =>
    intro optL defL v dmid opt2 def2 hL h2 hd2 hv _ hcond
    rw [List.length_eq_zero.mp h2, List.length_eq_zero.mp hd2]
    rw [show optL ++ v :: ([] : List JVal) = optL ++ [v] from rfl,
      show defL ++ dmid :: ([] : List JVal) = defL ++ [dmid] from rfl,
      hd_eq_snoc_nonnull dmid hL hv, fillZipOpt_eq_backfill optL defL hL hcond]
    rfl
  | succ n ih =>
    intro optL defL v dmid opt2 def2 hL h2 hd2 hv hnull hcond
    obtain ⟨os, w, rfl, hos⟩ := exists_concat_of_length_succ h2
    obtain ⟨es, e, rfl, hes⟩ := exists_concat_of_length_succ hd2
    have hw : w = JVal.null := hnull w (by simp)
    subst hw
    have e1 : (optL ++ v :: os) ++ [JVal.null] = optL ++ v :: (os ++ [JVal.null]) := by
      rw [List.append_assoc, List.cons_append]
    have e2 : (defL ++ dmid :: es) ++ [e] = defL ++ dmid :: (es ++ [e]) := by
      rw [List.append_assoc, List.cons_append]
    rw [← e1, ← e2, hd_eq_snoc_null e
      (by simp only [List.length_append, List.length_cons]; omega)]
    exact ih optL defL v dmid os es hL hos hes hv
      (fun x hx => hnull x (by simp [hx])) hcond

theorem hd_master :
    ∀ (req optL defL : List JVal) (v dmid : JVal) (opt2 def2 : List JVal),
      optL.length = defL.length → opt2.length = def2.length →
      ¬ v = JVal.null → (∀ x ∈ opt2, x = JVal.null) →
      (∀ p ∈ List.zip optL defL, p.1 = JVal.null → ¬ p.2 = JVal.null) →
      handle_defaults (req ++ (optL ++ v :: opt2)) (defL ++ dmid :: def2) =
        some (req ++ (backfill optL defL ++ [v])) := by
  intro req
  induction req with
  | nil =>
    intro optL defL v dmid opt2 def2 hL h2 hv hnull hcond
    simp only [List.nil_append]
    exact hd_master_noreq opt2.length optL defL v dmid opt2 def2 hL rfl h2.symm
      hv hnull hcond
  | cons x req' ih =>
    intro optL defL v dmid opt2 def2 hL h2 hv hnull hcond
    have hM : (defL ++ dmid :: def2).length ≤ (req' ++ (optL ++ v :: opt2)).length := by
      simp only [List.length_append, List.length_cons]
      omega
    rw [List.cons_append, handle_defaults_cons x hM,
      ih optL defL v dmid opt2 def2 hL h2 hv hnull hcond]
    rfl

/-! ## Helper lemmas for the elision claims -/

theorem hd_all_null_eqlen :
    ∀ (n : Nat) (opt defaults : List JVal), opt.length = n → defaults.length = n →
      (∀ v ∈ opt, v = JVal.null) → handle_defaults opt defaults = some [] := by
  intro n
  induction n with
  | zero =>
    intro opt defaults h1 h2 _
    rw [List.length_eq_zero.mp h1, List.length_eq_zero.mp h2]
    rfl
  | succ n ih =>
    intro opt defaults h1 h2 hnull
    obtain ⟨os, w, rfl, hos⟩ := exists_concat_of_length_succ h1
    obtain ⟨es, e, rfl, hes⟩ := exists_concat_of_length_succ h2
    have hw : w = JVal.null := hnull w (by simp)
    subst hw
    rw [hd_eq_snoc_null e (hos.trans hes.symm)]
    exact ih os es hos hes (fun v hv => hnull v (by simp [hv]))

theorem hd_all_null :
    ∀ (req opt defaults : List JVal), opt.length = defaults.length →
      (∀ v ∈ opt, v = JVal.null) →
      handle_defaults (req ++ opt) defaults = some req := by
  intro req
  induction req with
  | nil =>
    intro opt defaults h hnull
    simp only [List.nil_append]
    exact hd_all_null_eqlen defaults.length opt defaults h rfl hnull
  | cons x req' ih =>
    intro opt defaults h hnull
    have hM : defaults.length ≤ (req' ++ opt).length := by
      simp only [List.length_append]
      omega
    rw [List.cons_append, handle_defaults_cons x hM, ih opt defaults h hnull]
    rfl

theorem hd_panic_eqlen :
    ∀ (n : Nat) (o1 d1 o2 d2 : List JVal) (v : JVal),
      o1.length = d1.length → o2.length = n → d2.length = n →
      v ∈ o2 → ¬ v = JVal.null →
      handle_defaults (o1 ++ JVal.null :: o2) (d1 ++ JVal.null :: d2) = none := by
  intro n
  induction n with
  | zero =>
    intro o1 d1 o2 d2 v _ h2 _ hv _
    rw [List.length_eq_zero.mp h2] at hv
    cases hv
  | succ n ih =>
    intro o1 d1 o2 d2 v h1 h2 hd2 hv hnn
    obtain ⟨os, w, rfl, hos⟩ := exists_concat_of_length_succ h2
    obtain ⟨es, e, rfl, hes⟩ := exists_concat_of_length_succ hd2
    have e1 : (o1 ++ JVal.null :: os) ++ [w] = o1 ++ JVal.null :: (os ++ [w]) := by
      rw [List.append_assoc, List.cons_append]
    have e2 : (d1 ++ JVal.null :: es) ++ [e] = d1 ++ JVal.null :: (es ++ [e]) := by
      rw [List.append_assoc, List.cons_append]
    by_cases hw : w = JVal.null
    · subst hw
      have hvos : v ∈ os := by
        rcases List.mem_append.mp hv with h | h
        · exact h
        · exact absurd (by simpa using h) hnn
      rw [← e1, ← e2, hd_eq_snoc_null e
        (by simp only [List.length_append, List.length_cons]; omega)]
      exact ih o1 d1 os es v h1 hos hes hvos hnn
    · rw [← e1, ← e2, hd_eq_snoc_nonnull e
        (by simp only [List.length_append, List.length_cons]; omega) hw,
        fillZipOpt_null_null o1 d1 os es h1]
      rfl

theorem backfill_all_null :
    ∀ (opt defs : List JVal), (∀ x ∈ opt, x = JVal.null) → opt.length = defs.length →
      backfill opt defs = defs := by
  intro opt
  induction opt with
  | nil =>
    intro defs _ h
    rw [List.length_eq_zero.mp h.symm]
    rfl
  | cons x xs ih =>
    intro defs hnull h
    cases defs with
    | nil => simp at h
    | cons y ys =>
      have hx : x = JVal.null := hnull x (by simp)
      simp only [backfill, List.zipWith_cons_cons, if_pos hx]
      rw [show List.zipWith (fun a d => if a = JVal.null then d else a) xs ys =
        backfill xs ys from rfl]
      rw [ih ys (fun z hz => hnull z (by simp [hz])) (by simpa using h)]

/-! ## The elision claims -/

/-- C2: for every argument array `args` (length N) and defaults list (length
M ≤ N) such that every one of the last M (optional) slots of `args` is null,
the elision algorithm returns exactly the first N − M entries of `args` (the
required prefix), dropping all optional arguments. -/
theorem claim_C2 (args defaults : List JVal)
    (hM : defaults.length ≤ args.length)
    (hnull : ∀ v ∈ args.drop (args.length - defaults.length), v = JVal.null) :
    handle_defaults args defaults =
      some (args.take (args.length - defaults.length)) := by
  have hsplit := List.take_append_drop (args.length - defaults.length) args
  have hlen : (args.drop (args.length - defaults.length)).length = defaults.length := by
    rw [List.length_drop]
    omega
  conv_lhs => rw [← hsplit]
  exact hd_all_null (args.take (args.length - defaults.length))
    (args.drop (args.length - defaults.length)) defaults hlen hnull

theorem claim_C2_witness :
    handle_defaults [JVal.num 0, JVal.null, JVal.null] [JVal.num 1, JVal.num 2] =
      some [JVal.num 0] := by
  have h := claim_C2 [JVal.num 0, JVal.null, JVal.null] [JVal.num 1, JVal.num 2]
    (by decide) (by decide)
  exact h

/-- C5: for every argument array `args` and an empty defaults list (zero
optional parameters, M = 0), the elision algorithm is the identity on
`args`. -/
theorem claim_C5 (args : List JVal) : handle_defaults args [] = some args := by
  have h := hd_all_null args [] [] rfl (by simp)
  simpa using h

/-- C4: whenever some optional slot is null, lies to the left of a non-null
optional slot, and its corresponding default is itself null, the elision
algorithm aborts fatally (`panic!`, modelled as `none`) rather than
returning a result; since `handle_defaults` has no typed-error channel at
all (its Rust signature returns a slice, not a `Result`), the abort is
distinguishable from the library's ordinary typed errors.  Here the null
slot with the null default sits between `o1` and `o2` (aligned with `d1` and
`d2`), and `o2` contains the later non-null optional value `v`. -/
theorem claim_C4 (req o1 d1 o2 d2 : List JVal) (v : JVal)
    (h1 : o1.length = d1.length) (h2 : o2.length = d2.length)
    (hv : v ∈ o2) (hnn : ¬ v = JVal.null) :
    handle_defaults (req ++ (o1 ++ JVal.null :: o2)) (d1 ++ JVal.null :: d2) =
      none := by
  induction req with
  | nil =>
    simp only [List.nil_append]
    exact hd_panic_eqlen o2.length o1 d1 o2 d2 v h1 rfl h2.symm hv hnn
  | cons x req' ih =>
    have hM : (d1 ++ JVal.null :: d2).length ≤ (req' ++ (o1 ++ JVal.null :: o2)).length := by
      simp only [List.length_append, List.length_cons]
      omega
    rw [List.cons_append, handle_defaults_cons x hM, ih]
    rfl

theorem claim_C4_witness :
    handle_defaults [JVal.null, JVal.num 5] [JVal.null, JVal.num 3] = none := by
  have h := claim_C4 [] [] [] [JVal.num 5] [JVal.num 3] (JVal.num 5)
    (by decide) (by decide) (by decide) (by decide)
  exact h

/-- C1 counterexample: with `args = [null, 5]` and `defaults = [null, 3]`
the hypotheses of C1 hold (slot 1 is the rightmost non-null optional slot
and there is no optional slot to its right), yet the algorithm panics
(modelled as `none`) on the null slot 0 whose default is null, instead of
returning the claimed prefix. -/
theorem claim_C1_counterexample :
    ¬ JVal.num 5 = JVal.null ∧
      handle_defaults [JVal.null, JVal.num 5] [JVal.null, JVal.num 3] = none := by
  exact ⟨by decide, by decide⟩

/-- C1 (amended): as C1, with the additional hypothesis that every null
optional slot to the left of the rightmost non-null optional slot has a
non-null default (`hleft`) — without it the algorithm panics, see the
counterexample.  The array decomposes as required prefix `req`, optional
segment `optL`, the rightmost non-null optional value `v`, and trailing
nulls `opt2`; the defaults align as `defL`, `dmid`, `def2`.  The result is
the prefix ending at `v`, with the nulls in `optL` backfilled from `defL`
and `v` preserved unchanged. -/
theorem claim_C1 (req optL defL : List JVal) (v dmid : JVal) (opt2 def2 : List JVal)
    (hL : optL.length = defL.length) (h2 : opt2.length = def2.length)
    (hv : ¬ v = JVal.null) (hnull : ∀ x ∈ opt2, x = JVal.null)
    (_hright : ∀ p ∈ List.zip opt2 def2, ¬ p.2 = JVal.null)
    (hleft : ∀ p ∈ List.zip optL defL, p.1 = JVal.null → ¬ p.2 = JVal.null) :
    handle_defaults (req ++ (optL ++ v :: opt2)) (defL ++ dmid :: def2) =
      some (req ++ (backfill optL defL ++ [v])) :=
  hd_master req optL defL v dmid opt2 def2 hL h2 hv hnull hleft

theorem claim_C1_witness :
    handle_defaults [JVal.num 0, JVal.null, JVal.num 5] [JVal.num 2, JVal.num 3] =
      some [JVal.num 0, JVal.num 2, JVal.num 5] := by
  have h := claim_C1 [JVal.num 0] [JVal.null] [JVal.num 2] (JVal.num 5) (JVal.num 3)
    [] [] (by decide) (by decide) (by decide) (by decide) (by decide) (by decide)
  simpa [backfill] using h

/-- C3 counterexample: with `args = [null, 5]` (both slots optional) and
`defaults = [2, 3]`, exactly the last optional slot is non-null, yet the
algorithm returns `[2, 5]` — the null slot is replaced by its default — and
not the original array `[null, 5]` unchanged. -/
theorem claim_C3_counterexample :
    handle_defaults [JVal.null, JVal.num 5] [JVal.num 2, JVal.num 3] =
        some [JVal.num 2, JVal.num 5] ∧
      ¬ handle_defaults [JVal.null, JVal.num 5] [JVal.num 2, JVal.num 3] =
        some [JVal.null, JVal.num 5] := by
  exact ⟨by decide, by decide⟩

/-- C3 (amended): when the last optional slot holds a non-null value `v` and
every other optional slot is null, the algorithm returns the full array of
length N with the required entries and `v` unchanged, and each other
optional slot replaced by its corresponding default — provided those
defaults are non-null (otherwise it panics).  The original claim's "every
entry equal to its original input value" holds only for the required
entries and the last slot. -/
theorem claim_C3 (req optN defL : List JVal) (v dmid : JVal)
    (hL : optN.length = defL.length) (hv : ¬ v = JVal.null)
    (hnull : ∀ x ∈ optN, x = JVal.null) (hdef : ∀ d ∈ defL, ¬ d = JVal.null) :
    handle_defaults (req ++ (optN ++ [v])) (defL ++ [dmid]) =
      some (req ++ (defL ++ [v])) := by
  have h := hd_master req optN defL v dmid [] [] hL rfl hv (by simp)
    (fun p hp _ => hdef p.2 (List.of_mem_zip hp).2)
  rw [backfill_all_null optN defL hnull hL] at h
  exact h

theorem claim_C3_witness :
    handle_defaults [JVal.num 0, JVal.null, JVal.num 9] [JVal.num 7, JVal.num 3] =
      some [JVal.num 0, JVal.num 7, JVal.num 9] := by
  have h := claim_C3 [JVal.num 0] [JVal.null] [JVal.num 7] (JVal.num 9) (JVal.num 3)
    (by decide) (by decide) (by decide) (by decide)
  exact h

/-! ## The frame claim -/

theorem hd_frame_eqlen :
    ∀ (n : Nat) (as ds r : List JVal), as.length = n → ds.length = n →
      handle_defaults as ds = some r →
      r.length ≤ n ∧
        (∀ i, i < r.length →
          r.getD i JVal.null = as.getD i JVal.null ∨
            (as.getD i JVal.null = JVal.null ∧
              r.getD i JVal.null = ds.getD i JVal.null)) := by
  intro n
  induction n with
  | zero =>
    intro as ds r ha hd h
    rw [List.length_eq_zero.mp ha, List.length_eq_zero.mp hd] at h
    have hr : r = [] := by
      have h0 : handle_defaults [] [] = some [] := rfl
      rw [h0] at h
      exact (Option.some.injEq _ _ ▸ h).symm
    subst hr
    exact ⟨Nat.le_refl 0, fun i hi => absurd hi (by simp)⟩
  | succ n ih =>
    intro as ds r ha hd h
    obtain ⟨as', a, rfl, ha'⟩ := exists_concat_of_length_succ ha
    obtain ⟨ds', d, rfl, hd'⟩ := exists_concat_of_length_succ hd
    by_cases hA : a = JVal.null
    · subst hA
      rw [hd_eq_snoc_null d (ha'.trans hd'.symm)] at h
      obtain ⟨hr1, hr2⟩ := ih as' ds' r ha' hd' h
      refine ⟨by omega, ?_⟩
      intro i hi
      have hi' : i < as'.length := by omega
      have hi'' : i < ds'.length := by omega
      rcases hr2 i hi with hcase | ⟨hnul, hdef⟩
      · left
        rw [List.getD_append _ _ _ _ hi']
        exact hcase
      · right
        constructor
        · rw [List.getD_append _ _ _ _ hi']
          exact hnul
        · rw [List.getD_append _ _ _ _ hi'']
          exact hdef
    · rw [hd_eq_snoc_nonnull d (ha'.trans hd'.symm) hA] at h
      cases hfz : fillZipOpt as' ds' with
      | none =>
        rw [hfz] at h
        cases h
      | some l =>
        rw [hfz] at h
        simp only [Option.map, Option.some.injEq] at h
        subst h
        have hlen : l.length = as'.length :=
          fillZipOpt_length as' ds' l (ha'.trans hd'.symm) hfz
        refine ⟨by simp only [List.length_append, List.length_cons, List.length_nil]; omega, ?_⟩
        intro i hi
        simp only [List.length_append, List.length_cons, List.length_nil] at hi
        by_cases hilt : i < l.length
        · have hig := fillZipOpt_getD as' ds' l (ha'.trans hd'.symm) hfz i (by omega)
          rw [List.getD_append _ _ _ _ hilt]
          by_cases hnul : as'.getD i JVal.null = JVal.null
          · right
            rw [if_pos hnul] at hig
            constructor
            · rw [List.getD_append _ _ _ _ (by omega)]
              exact hnul
            · rw [hig, List.getD_append _ _ _ _ (by omega)]
          · left
            rw [if_neg hnul] at hig
            rw [hig, List.getD_append _ _ _ _ (by omega)]
        · have hieq : i = l.length := by omega
          left
          subst hieq
          rw [getD_concat l [] a JVal.null, hlen, getD_concat as' [] a JVal.null]

/-- C6: whenever the elision algorithm returns without aborting, the result
is a prefix of the post-substitution argument array: its length lies
between N − M and N, its first N − M entries are exactly the original
required arguments, and each of its entries is either the corresponding
original argument unchanged or — only for an optional slot whose original
value was null — the corresponding default. -/
theorem claim_C6 (args defaults r : List JVal)
    (hM : defaults.length ≤ args.length)
    (h : handle_defaults args defaults = some r) :
    args.length - defaults.length ≤ r.length ∧ r.length ≤ args.length ∧
      r.take (args.length - defaults.length) =
        args.take (args.length - defaults.length) ∧
      (∀ i, i < r.length →
        r.getD i JVal.null = args.getD i JVal.null ∨
          (args.getD i JVal.null = JVal.null ∧
            args.length - defaults.length ≤ i ∧
            r.getD i JVal.null =
              defaults.getD (i - (args.length - defaults.length)) JVal.null)) := by
  induction args generalizing r with
  | nil =>
    have hd0 : defaults = [] := List.length_eq_zero.mp (Nat.le_zero.mp (by simpa using hM))
    subst hd0
    have h0 : handle_defaults [] [] = some [] := rfl
    rw [h0] at h
    have hr : r = [] := (Option.some.injEq _ _ ▸ h).symm
    subst hr
    exact ⟨by simp, by simp, rfl, fun i hi => absurd hi (by simp)⟩
  | cons x args' ih =>
    by_cases hcase : defaults.length ≤ args'.length
    · rw [handle_defaults_cons x hcase] at h
      cases hr : handle_defaults args' defaults with
      | none =>
        rw [hr] at h
        cases h
      | some r' =>
        rw [hr] at h
        simp only [Option.map, Option.some.injEq] at h
        subst h
        obtain ⟨h1, h2, h3, h4⟩ := ih r' hcase hr
        have elen : (x :: args').length - defaults.length =
            (args'.length - defaults.length) + 1 := by
          simp only [List.length_cons]
          omega
        refine ⟨?_, ?_, ?_, ?_⟩
        · simp only [List.length_cons]
          omega
        · simp only [List.length_cons]
          omega
        · rw [elen, List.take_succ_cons, List.take_succ_cons, h3]
        · intro i hi
          cases i with
          | zero => left; rfl
          | succ j =>
            have hj : j < r'.length := by simpa using hi
            rcases h4 j hj with hc | ⟨hn, hge, hdq⟩
            · left
              simpa only [List.getD_cons_succ] using hc
            · right
              refine ⟨by simpa only [List.getD_cons_succ] using hn, by rw [elen]; omega, ?_⟩
              rw [List.getD_cons_succ, hdq, elen,
                show j + 1 - ((args'.length - defaults.length) + 1) =
                  j - (args'.length - defaults.length) from by omega]
    · have hM' : defaults.length ≤ args'.length + 1 := by simpa using hM
      have heqlen : defaults.length = (x :: args').length := by
        simp only [List.length_cons]
        omega
      obtain ⟨h1, h2⟩ :=
        hd_frame_eqlen defaults.length (x :: args') defaults r heqlen.symm rfl h
      have hz : (x :: args').length - defaults.length = 0 := by omega
      refine ⟨by omega, by omega, by rw [hz]; rfl, ?_⟩
      intro i hi
      rcases h2 i hi with hc | ⟨hn, hdq⟩
      · left
        exact hc
      · right
        exact ⟨hn, by omega, by rw [hz, Nat.sub_zero]; exact hdq⟩

theorem claim_C6_witness :
    ([JVal.num 1, JVal.num 6, JVal.num 4] : List JVal).take
        (([JVal.num 1, JVal.null, JVal.num 4] : List JVal).length -
          ([JVal.num 6, JVal.num 8] : List JVal).length) =
      ([JVal.num 1, JVal.null, JVal.num 4] : List JVal).take
        (([JVal.num 1, JVal.null, JVal.num 4] : List JVal).length -
          ([JVal.num 6, JVal.num 8] : List JVal).length) := by
  have h := claim_C6 [JVal.num 1, JVal.null, JVal.num 4] [JVal.num 6, JVal.num 8]
    [JVal.num 1, JVal.num 6, JVal.num 4] (by decide) (by decide)
  exact h.2.2.1

/-! ## Authentication resolver: C7 -/

theorem splitFirstColon_of_not_mem :
    ∀ (l : List Char), ':' ∉ l → splitFirstColon l = none := by
  intro l
  induction l with
  | nil => intro _; rfl
  | cons c cs ih =>
    intro h
    have hc : ¬ c = ':' := by
      intro hcc
      subst hcc
      exact h (List.mem_cons_self _ _)
    simp only [splitFirstColon, if_neg hc,
      ih (fun hm => h (List.mem_cons_of_mem _ hm)), Option.map]

theorem splitFirstColon_append :
    ∀ (pre post : List Char), ':' ∉ pre →
      splitFirstColon (pre ++ ':' :: post) = some (pre, post) := by
  intro pre
  induction pre with
  | nil =>
    intro post _
    simp [splitFirstColon]
  | cons c cs ih =>
    intro post h
    have hc : ¬ c = ':' := by
      intro hcc
      subst hcc
      exact h (List.mem_cons_self _ _)
    simp only [List.cons_append, splitFirstColon, if_neg hc, List.append_eq,
      ih post (fun hm => h (List.mem_cons_of_mem _ hm)), Option.map]

/-- C7: resolving a `CookieFile` credential descriptor whose file content is
exactly `"alice:secret"` yields the pair `("alice", "secret")`; content
containing no colon fails with the distinct `invalidCookieFile` error; and
in general the content is split at the first colon only, so everything
after the first colon (including later colons) becomes the password. -/
theorem claim_C7 :
    (∀ (fs : String → Option String) (path : String),
        fs path = some "alice:secret" →
        Auth.get_user_pass fs (Auth.cookieFile path) =
          Except.ok (some "alice", some "secret")) ∧
      (∀ (fs : String → Option String) (path contents : String),
        fs path = some contents → ':' ∉ contents.toList →
        Auth.get_user_pass fs (Auth.cookieFile path) =
          Except.error Error.invalidCookieFile) ∧
      (∀ (fs : String → Option String) (path : String) (pre post : List Char),
        ':' ∉ pre → fs path = some (String.mk (pre ++ ':' :: post)) →
        Auth.get_user_pass fs (Auth.cookieFile path) =
          Except.ok (some (String.mk pre), some (String.mk post))) := by
  refine ⟨?_, ?_, ?_⟩
  · intro fs path h
    simp only [Auth.get_user_pass, h]
    rfl
  · intro fs path contents h hnc
    simp only [Auth.get_user_pass, h, splitnTwoAtColon,
      splitFirstColon_of_not_mem contents.toList hnc]
  · intro fs path pre post hnc h
    simp only [Auth.get_user_pass, h, splitnTwoAtColon,
      show (String.mk (pre ++ ':' :: post)).toList = pre ++ ':' :: post from rfl,
      splitFirstColon_append pre post hnc]

theorem claim_C7_witness :
    Auth.get_user_pass (fun _ => some "alice:secret") (Auth.cookieFile "cookie") =
        Except.ok (some "alice", some "secret") ∧
      Auth.get_user_pass (fun _ => some "nodelimiter") (Auth.cookieFile "cookie") =
        Except.error Error.invalidCookieFile ∧
      Auth.get_user_pass (fun _ => some (String.mk (['u'] ++ ':' :: ['p', ':', 'q'])))
          (Auth.cookieFile "cookie") =
        Except.ok (some (String.mk ['u']), some (String.mk ['p', ':', 'q'])) :=
  ⟨claim_C7.1 _ "cookie" rfl,
    claim_C7.2.1 _ "cookie" "nodelimiter" rfl (by decide),
    claim_C7.2.2 _ "cookie" ['u'] ['p', ':', 'q'] (by decide) rfl⟩

/-! ## Dispatcher: C8 -/

/-- C8: a dispatcher call whose transport response envelope signals a
remote-side fault returns the error variant carrying the remote fault (its
code and message), for every decoder — i.e. no deserialization of a result
payload into the expected typed result is attempted; result decoding
happens only when the envelope signals success. -/
theorem claim_C8 {T : Type} (transport : String → List JVal → Except String Response)
    (decode : JVal → Except String T) (cmd : String) (args : List JVal)
    (resp : Response) (fault : RpcError)
    (hok : transport cmd args = Except.ok resp)
    (hfault : resp.error = some fault) :
    Client.call transport decode cmd args =
      Except.error (Error.jsonRpc (JsonRpcError.rpc fault)) := by
  obtain ⟨res, err⟩ := resp
  have he : err = some fault := hfault
  subst he
  unfold Client.call intoResult
  rw [hok]

theorem claim_C8_witness :
    Client.call
        (fun _ _ => Except.ok ⟨some (JVal.num 1), some ⟨-32601, "Method not found"⟩⟩)
        (fun v => Except.ok v) "getblockcount" [] =
      Except.error (Error.jsonRpc (JsonRpcError.rpc ⟨-32601, "Method not found"⟩)) :=
  claim_C8 _ _ "getblockcount" []
    ⟨some (JVal.num 1), some ⟨-32601, "Method not found"⟩⟩
    ⟨-32601, "Method not found"⟩ rfl rfl

/-! ## Raw-transaction normalization: C9 and C10 -/

theorem hexDigit_ok : ∀ (n : Fin 16),
    (('0' ≤ hexDigit n.val && hexDigit n.val ≤ '9') ||
      ('a' ≤ hexDigit n.val && hexDigit n.val ≤ 'f')) = true := by
  decide

theorem hexChars_all :
    ∀ (bytes : List Nat),
      (bytes.flatMap (fun b => [hexDigit (b / 16 % 16), hexDigit (b % 16)])).all
        (fun c => ('0' ≤ c && c ≤ '9') || ('a' ≤ c && c ≤ 'f')) = true := by
  intro bytes
  induction bytes with
  | nil => rfl
  | cons b bs ih =>
    simp only [List.flatMap_cons, List.all_append, ih, Bool.and_true,
      List.all_cons, List.all_nil]
    rw [hexDigit_ok ⟨b / 16 % 16, Nat.mod_lt _ (by omega)⟩,
      hexDigit_ok ⟨b % 16, Nat.mod_lt _ (by omega)⟩]
    rfl

theorem hexEncode_length_even :
    ∀ (bytes : List Nat),
      (bytes.flatMap (fun b => [hexDigit (b / 16 % 16), hexDigit (b % 16)])).length % 2
        = 0 := by
  intro bytes
  induction bytes with
  | nil => rfl
  | cons b bs ih =>
    simp only [List.flatMap_cons, List.length_append, List.length_cons, List.length_nil]
    omega

theorem hexEncode_canonical (bytes : List Nat) :
    isCanonicalHex (hexEncode bytes) = true := by
  unfold isCanonicalHex hexEncode
  have ht : (String.mk (bytes.flatMap
        (fun b => [hexDigit (b / 16 % 16), hexDigit (b % 16)]))).toList =
      bytes.flatMap (fun b => [hexDigit (b / 16 % 16), hexDigit (b % 16)]) := rfl
  rw [ht, hexChars_all bytes, Bool.true_and, decide_eq_true_eq]
  exact hexEncode_length_even bytes

/-- C9 counterexample: the borrowed-string representation passes its input
through unchanged, so normalizing the already-uppercase string `"AB"`
yields `"AB"`, which is not a canonical lowercase hex string — the claim
that every accepted representation produces a canonical lowercase hex
string fails for the string representations. -/
theorem claim_C9_counterexample :
    raw_hex (fun (_ : Unit) => ([] : List Nat)) (RawTxInput.str "AB") = "AB" ∧
      isCanonicalHex "AB" = false :=
  ⟨rfl, by decide⟩

/-- C9 (amended): the structured-transaction and byte-buffer representations
are hex-encoded to a canonical lowercase hex string, without validating the
transaction's structure; the borrowed and owned string representations are
passed through unchanged (they are assumed to already be hex), also without
validation. -/
theorem claim_C9 {Tx : Type} (ser : Tx → List Nat) (t : Tx) (bs : List Nat)
    (s : String) :
    isCanonicalHex (raw_hex ser (RawTxInput.tx t)) = true ∧
      isCanonicalHex (raw_hex ser (RawTxInput.bytes bs)) = true ∧
      isCanonicalHex (raw_hex ser (RawTxInput.vec bs)) = true ∧
      raw_hex ser (RawTxInput.str s) = s ∧
      raw_hex ser (RawTxInput.string s) = s :=
  ⟨hexEncode_canonical (ser t), hexEncode_canonical bs, hexEncode_canonical bs,
    rfl, rfl⟩

/-- C10: raw-transaction normalization is idempotent on the string
representations: for every string that is already a canonical (lowercase,
even-length) hex string, `raw_hex` returns it unchanged, both for the
borrowed and the owned string representation. -/
theorem claim_C10 {Tx : Type} (ser : Tx → List Nat) (s : String)
    (_h : isCanonicalHex s = true) :
    raw_hex ser (RawTxInput.str s) = s ∧ raw_hex ser (RawTxInput.string s) = s :=
  ⟨rfl, rfl⟩

theorem claim_C10_witness :
    raw_hex (fun (_ : Unit) => ([] : List Nat)) (RawTxInput.str "deadbeef") =
        "deadbeef" ∧
      raw_hex (fun (_ : Unit) => ([] : List Nat)) (RawTxInput.string "deadbeef") =
        "deadbeef" :=
  claim_C10 (fun (_ : Unit) => ([] : List Nat)) "deadbeef" (by decide)
